import Mathlib

/-!
# Verification of the Hermes topic-derivation pipeline

Shallow embedding of the topic-extraction, aggregation and umbrella-clustering
code (`topic_extractor_v2.py`, `topic_extractor.py`, `umbrella_builder.py`),
with theorems settling the specification claims about it.
-/

namespace Hermes

/-- Embedding of Python `round(x, 3)`: scale by 1000, round to the nearest
integer, scale back. -/
noncomputable def round3 (x : ℝ) : ℝ := (round (1000 * x) : ℤ) / 1000

/-- Embedding of `TopicExtractorV2._compute_confidence`
(`topic_extractor_v2.py`, lines 381-397):
`normalized_mmr = max(0, min(1.0, (mmr_score + 0.5) / 1.2))`,
`evidence_boost = min(0.3, np.log1p(evidence_count) / 10)`,
`confidence = min(1.0, normalized_mmr + evidence_boost)`, rounded to 3
decimals.  `np.log1p(n) = ln (1 + n)`. -/
noncomputable def compute_confidence (mmr_score : ℝ) (evidence_count : ℕ) : ℝ :=
  let normalized_mmr : ℝ := max 0 (min 1 ((mmr_score + 0.5) / 1.2))
  let evidence_boost : ℝ := min 0.3 (Real.log (1 + (evidence_count : ℝ)) / 10)
  round3 (min 1 (normalized_mmr + evidence_boost))

/-- Clamp `x` into `[lo, hi]`, as in the spec's `clamp((mmr_score+0.5)/1.2, 0, 1)`. -/
noncomputable def clamp (x lo hi : ℝ) : ℝ := max lo (min hi x)

/-- The confidence formula exactly as the specification words it:
`round(min(1.0, clamp((mmr_score + 0.5) / 1.2, 0, 1) + min(0.3, ln(1 + evidence_count) / 10)), 3)`. -/
noncomputable def confidenceSpecFormula (mmr_score : ℝ) (evidence_count : ℕ) : ℝ :=
  round3 (min 1
    (clamp ((mmr_score + 0.5) / 1.2) 0 1
      + min 0.3 (Real.log (1 + (evidence_count : ℝ)) / 10)))

theorem round3_mem_Icc {x : ℝ} (h0 : 0 ≤ x) (h1 : x ≤ 1) :
    0 ≤ round3 x ∧ round3 x ≤ 1 := by
  have hlow : (0 : ℤ) ≤ round (1000 * x) := by
    rw [round_eq]
    exact Int.le_floor.mpr (by push_cast; linarith)
  have hhigh : round (1000 * x) ≤ 1000 := by
    rw [round_eq]
    have h2 : ⌊(1000 : ℝ) * x + 1 / 2⌋ < (1001 : ℤ) :=
      Int.floor_lt.mpr (by push_cast; linarith)
    omega
  constructor
  · unfold round3
    have : (0 : ℝ) ≤ (round (1000 * x) : ℤ) := by exact_mod_cast hlow
    positivity
  · unfold round3
    have : ((round (1000 * x) : ℤ) : ℝ) ≤ 1000 := by exact_mod_cast hhigh
    linarith

/-- C1: the confidence calibrator returns exactly
`round(min(1.0, clamp((mmr_score+0.5)/1.2, 0, 1) + min(0.3, ln(1+evidence_count)/10)), 3)`,
and the result always lies in `[0, 1]` — for every real `mmr_score`
(negative included) and every evidence count (zero included). -/
theorem compute_confidence_correct_and_bounded (mmr_score : ℝ) (evidence_count : ℕ) :
    compute_confidence mmr_score evidence_count
        = confidenceSpecFormula mmr_score evidence_count ∧
    0 ≤ compute_confidence mmr_score evidence_count ∧
    compute_confidence mmr_score evidence_count ≤ 1 := by
  have hform : compute_confidence mmr_score evidence_count
      = confidenceSpecFormula mmr_score evidence_count := rfl
  have hboost : (0 : ℝ) ≤ min 0.3 (Real.log (1 + (evidence_count : ℝ)) / 10) := by
    have hlog : (0 : ℝ) ≤ Real.log (1 + (evidence_count : ℝ)) :=
      Real.log_nonneg (le_add_of_nonneg_right (Nat.cast_nonneg _))
    have : (0 : ℝ) ≤ Real.log (1 + (evidence_count : ℝ)) / 10 := by positivity
    exact le_min (by norm_num) this
  have hnm0 : (0 : ℝ) ≤ max 0 (min 1 ((mmr_score + 0.5) / 1.2)) := le_max_left _ _
  have harg0 : (0 : ℝ) ≤ min 1
      (max 0 (min 1 ((mmr_score + 0.5) / 1.2))
        + min 0.3 (Real.log (1 + (evidence_count : ℝ)) / 10)) :=
    le_min (by norm_num) (by linarith)
  have harg1 : min 1
      (max 0 (min 1 ((mmr_score + 0.5) / 1.2))
        + min 0.3 (Real.log (1 + (evidence_count : ℝ)) / 10)) ≤ (1 : ℝ) :=
    min_le_left _ _
  have hbounds := round3_mem_Icc harg0 harg1
  exact ⟨hform, hbounds.1, hbounds.2⟩

/-! ## Canonicalization (`TopicExtractorV2._canonicalize`, lines 161-175) -/

/-- A Python string, modelled as its list of characters. -/
abbrev PyStr := List Char

/-- ASCII lower-casing of one character, as Python `str.lower()` acts on
the characters appearing here. -/
def lowerChar (c : Char) : Char :=
  if 'A' ≤ c ∧ c ≤ 'Z' then Char.ofNat (c.toNat + 32) else c

/-- Embedding of Python `str.lower()`. -/
def pyLower (s : PyStr) : PyStr := s.map lowerChar

/-- Embedding of Python `str.strip()`: remove leading and trailing
whitespace. -/
def pyStrip (s : PyStr) : PyStr :=
  ((s.dropWhile Char.isWhitespace).reverse.dropWhile Char.isWhitespace).reverse

/-- `phrase.lower().strip()`, the normalization performed by
`_canonicalize` (line 168). -/
def normalizePhrase (s : PyStr) : PyStr := pyStrip (pyLower s)

/-- Embedding of `TopicExtractorV2._canonicalize` (lines 161-175): lower-case
and strip the phrase, return the merge-table entry when present, else the
normalized phrase itself.  The merge table (`canonical_map["merge_rules"]`,
a JSON object) is modelled as an association list. -/
def canonicalize (merge_rules : List (PyStr × PyStr)) (phrase : PyStr) : PyStr :=
  let phrase_lower := normalizePhrase phrase
  match merge_rules.lookup phrase_lower with
  | some v => v
  | none => phrase_lower

theorem lowerChar_lowerChar (c : Char) : lowerChar (lowerChar c) = lowerChar c := by
  unfold lowerChar
  by_cases h : 'A' ≤ c ∧ c ≤ 'Z'
  · rw [if_pos h]
    have hZ : c.toNat ≤ 90 := h.2
    have hvalid : c.toNat + 32 < 55296 := by omega
    have htoNat : (Char.ofNat (c.toNat + 32)).toNat = c.toNat + 32 := by
      unfold Char.ofNat
      rw [dif_pos (Or.inl hvalid)]
      rfl
    have hnot : ¬ ('A' ≤ Char.ofNat (c.toNat + 32) ∧ Char.ofNat (c.toNat + 32) ≤ 'Z') := by
      intro hc
      have h2 : (Char.ofNat (c.toNat + 32)).toNat ≤ 90 := hc.2
      have h3 : 65 ≤ c.toNat := h.1
      omega
    rw [if_neg hnot]
  · rw [if_neg h, if_neg h]

theorem map_eq_self_of_fixed {α : Type} {f : α → α} {l : List α}
    (h : ∀ x ∈ l, f x = x) : l.map f = l := by
  induction l with
  | nil => rfl
  | cons a t ih =>
    simp only [List.map_cons, h a (by simp)]
    rw [ih fun x hx => h x (by simp [hx])]

theorem dropWhile_idem (p : Char → Bool) (l : PyStr) :
    (l.dropWhile p).dropWhile p = l.dropWhile p := by
  induction l with
  | nil => rfl
  | cons a t ih =>
    by_cases hp : p a
    · simp [List.dropWhile_cons, hp, ih]
    · simp [List.dropWhile_cons, hp]

theorem dropWhile_eq_self_of_prefix {p : Char → Bool} {l b : PyStr}
    (hl : l.dropWhile p = l) (hb : b <+: l) : b.dropWhile p = b := by
  cases b with
  | nil => rfl
  | cons x xs =>
    obtain ⟨t, ht⟩ := hb
    have hpx : p x = false := by
      by_contra hpx
      have hpx' : p x = true := by
        cases hx : p x
        · exact absurd hx hpx
        · rfl
      subst ht
      simp only [List.cons_append] at hl
      have hstep : List.dropWhile p (x :: (xs ++ t)) = List.dropWhile p (xs ++ t) := by
        simp [List.dropWhile_cons, hpx']
      rw [hstep] at hl
      have hlen : (List.dropWhile p (xs ++ t)).length ≤ (xs ++ t).length :=
        (List.dropWhile_sublist p).length_le
      rw [hl] at hlen
      simp at hlen
    simp [List.dropWhile_cons, hpx]

theorem pyStrip_idem (l : PyStr) : pyStrip (pyStrip l) = pyStrip l := by
  unfold pyStrip
  set ws := Char.isWhitespace
  set a := l.dropWhile ws with ha
  set b := ((a.reverse.dropWhile ws).reverse : PyStr) with hb
  have hback : b.reverse.dropWhile ws = b.reverse := by
    rw [hb, List.reverse_reverse]
    exact dropWhile_idem ws a.reverse
  have hprefix : b <+: a := by
    have hsuf : a.reverse.dropWhile ws <:+ a.reverse := List.dropWhile_suffix ws
    have := List.reverse_prefix.mpr hsuf
    simpa using this
  have hfront : b.dropWhile ws = b := by
    have hfix : a.dropWhile ws = a := by rw [ha]; exact dropWhile_idem ws l
    exact dropWhile_eq_self_of_prefix hfix hprefix
  rw [hfront, hback, List.reverse_reverse]

theorem pyLower_pyStrip_pyLower (s : PyStr) :
    pyLower (pyStrip (pyLower s)) = pyStrip (pyLower s) := by
  apply map_eq_self_of_fixed
  intro x hx
  have hxl : x ∈ pyLower s := by
    unfold pyStrip at hx
    rw [List.mem_reverse] at hx
    have hx2 := (List.dropWhile_sublist Char.isWhitespace).mem hx
    rw [List.mem_reverse] at hx2
    exact (List.dropWhile_sublist Char.isWhitespace).mem hx2
  obtain ⟨y, _, hy⟩ := List.mem_map.mp hxl
  rw [← hy]
  exact lowerChar_lowerChar y

theorem normalizePhrase_idem (s : PyStr) :
    normalizePhrase (normalizePhrase s) = normalizePhrase s := by
  unfold normalizePhrase
  rw [pyLower_pyStrip_pyLower, pyStrip_idem]

theorem mem_of_lookup_eq_some {l : List (PyStr × PyStr)} {k v : PyStr}
    (h : l.lookup k = some v) : (k, v) ∈ l := by
  induction l with
  | nil => simp [List.lookup] at h
  | cons a t ih =>
    rw [List.lookup] at h
    cases hk : (k == a.1) with
    | true =>
      simp only [hk] at h
      have hk2 : a.1 = k := (eq_of_beq hk).symm
      have hv2 : a.2 = v := Option.some.inj h
      have ha : a = (k, v) := by
        obtain ⟨a1, a2⟩ := a
        dsimp only at hk2 hv2
        rw [hk2, hv2]
      rw [ha]
      exact List.mem_cons_self _ _
    | false =>
      simp only [hk] at h
      exact List.mem_cons_of_mem _ (ih h)

/-- C4 counterexample merge table: `"a" ↦ "b"` and `"b" ↦ "c"`; the value
`"b"` is itself a key mapped to a different target. -/
def cexMergeRules : List (PyStr × PyStr) := [(['a'], ['b']), (['b'], ['c'])]

/-- C4 counterexample: with the merge table `{"a": "b", "b": "c"}` (which the
code accepts — values are not required to be fixed points), canonicalization
is not idempotent at the input `"a"`: `canonicalize("a") = "b"` but
`canonicalize(canonicalize("a")) = "c"`. -/
theorem canonicalize_not_idempotent_cex :
    canonicalize cexMergeRules (canonicalize cexMergeRules ['a'])
      ≠ canonicalize cexMergeRules ['a'] := by decide

/-- C4 (amended): canonicalization is idempotent for every merge table whose
entries have canonical values — i.e. every table value is a fixed point of
`canonicalize` (already lower-cased/stripped and not remapped to a different
target).  `canonicalize(canonicalize(x)) = canonicalize(x)` for every input
string `x` under such a table. -/
theorem canonicalize_idempotent (merge_rules : List (PyStr × PyStr))
    (hval : ∀ p ∈ merge_rules, canonicalize merge_rules p.2 = p.2)
    (x : PyStr) :
    canonicalize merge_rules (canonicalize merge_rules x)
      = canonicalize merge_rules x := by
  cases h : merge_rules.lookup (normalizePhrase x) with
  | some v =>
    have hx : canonicalize merge_rules x = v := by
      simp only [canonicalize]
      rw [h]
    rw [hx]
    exact hval _ (mem_of_lookup_eq_some h)
  | none =>
    have hx : canonicalize merge_rules x = normalizePhrase x := by
      simp only [canonicalize]
      rw [h]
    rw [hx]
    simp only [canonicalize]
    rw [normalizePhrase_idem, h]

/-- Witness for C4 (amended): the one-entry table `{"a": "b"}` has canonical
values, and canonicalization under it is idempotent at `"a"`. -/
theorem canonicalize_idempotent_witness :
    (∀ p ∈ [((['a'] : PyStr), (['b'] : PyStr))],
        canonicalize [(['a'], ['b'])] p.2 = p.2) ∧
    canonicalize [(['a'], ['b'])] (canonicalize [(['a'], ['b'])] ['a'])
      = canonicalize [(['a'], ['b'])] ['a'] :=
  ⟨by decide, canonicalize_idempotent [(['a'], ['b'])] (by decide) ['a']⟩

/-! ## Candidate extraction (`TopicExtractorV2._extract_noun_phrases`, lines 132-154)

spaCy's parse (noun chunks, named entities) is external input; it is modelled
as the data the loop in `_extract_noun_phrases` reads from it. -/

/-- A spaCy token as read by `_extract_noun_phrases`: its lemma and its
stop-word flag. -/
structure SpacyToken where
  lemma_ : PyStr
  isStop : Bool
deriving DecidableEq

/-- A spaCy noun chunk: its tokens and character span. -/
structure NounChunk where
  tokens : List SpacyToken
  start_char : ℕ
  end_char : ℕ
deriving DecidableEq

/-- A spaCy named entity: its text, label and character span. -/
structure NamedEntity where
  text : PyStr
  label_ : PyStr
  start_char : ℕ
  end_char : ℕ
deriving DecidableEq

/-- Line 144: `" ".join([token.lemma_.lower() for token in chunk if not token.is_stop])`. -/
def chunkPhrase (c : NounChunk) : PyStr :=
  List.intercalate [' ']
    ((c.tokens.filter (fun t => !t.isStop)).map (fun t => pyLower t.lemma_))

/-- Lines 142-146: keep a chunk phrase only when it is truthy and longer
than 2 characters. -/
def chunkCandidates (chunks : List NounChunk) : List (PyStr × ℕ × ℕ) :=
  chunks.filterMap (fun c =>
    let phrase := chunkPhrase c
    if phrase ≠ [] ∧ phrase.length > 2 then some (phrase, c.start_char, c.end_char)
    else none)

/-- The entity labels accepted at line 150. -/
def acceptedEntityLabels : List PyStr :=
  ["PERSON".toList, "ORG".toList, "GPE".toList, "PRODUCT".toList, "EVENT".toList]

/-- Lines 148-152: every entity with an accepted label contributes its
lower-cased text — with no length check. -/
def entCandidates (ents : List NamedEntity) : List (PyStr × ℕ × ℕ) :=
  ents.filterMap (fun e =>
    if e.label_ ∈ acceptedEntityLabels then some (pyLower e.text, e.start_char, e.end_char)
    else none)

/-- Embedding of `_extract_noun_phrases` (lines 132-154): noun-chunk
candidates followed by named-entity candidates. -/
def extract_noun_phrases (chunks : List NounChunk) (ents : List NamedEntity) :
    List (PyStr × ℕ × ℕ) :=
  chunkCandidates chunks ++ entCandidates ents

/-- A two-character ORG entity, as spaCy routinely produces (e.g. `"EU"`). -/
def cexEntity : NamedEntity := ⟨"eu".toList, "ORG".toList, 0, 2⟩

/-- C5 counterexample: a transcript whose parse yields the named entity
`"eu"` (type organization) makes the candidate extractor emit the
2-character candidate `"eu"` — the `len(phrase) > 2` guard is applied only
on the noun-chunk branch, not on the entity branch. -/
theorem extract_noun_phrases_short_entity_cex :
    ¬ (∀ p ∈ extract_noun_phrases [] [cexEntity], 3 ≤ p.1.length) := by decide

/-- C5 (amended): every candidate emitted by the extractor either comes from
the named-entity branch (which performs no length check and can emit
shorter strings) or is a noun-phrase candidate of length at least 3 after
normalization. -/
theorem extract_noun_phrases_min_length (chunks : List NounChunk)
    (ents : List NamedEntity) :
    ∀ p ∈ extract_noun_phrases chunks ents,
      p ∈ entCandidates ents ∨ 3 ≤ p.1.length := by
  intro p hp
  rcases List.mem_append.mp hp with hc | he
  · right
    obtain ⟨c, _, hsome⟩ := List.mem_filterMap.mp hc
    by_cases hcond : chunkPhrase c ≠ [] ∧ (chunkPhrase c).length > 2
    · rw [if_pos hcond] at hsome
      have : p.1 = chunkPhrase c := by
        cases hsome
        rfl
      rw [this]
      omega
    · rw [if_neg hcond] at hsome
      cases hsome
  · left
    exact he

/-- A well-formed noun chunk for the witness: one non-stop token with lemma
`"meditation"`. -/
def witnessChunk : NounChunk := ⟨[⟨"meditation".toList, false⟩], 0, 10⟩

/-- Witness for C5 (amended), at the chunk `"meditation"`: the emitted
candidate is not from the entity branch and has length ≥ 3. -/
theorem extract_noun_phrases_min_length_witness :
    ("meditation".toList, 0, 10) ∈ extract_noun_phrases [witnessChunk] [] ∧
    (("meditation".toList, 0, 10) ∈ entCandidates ([] : List NamedEntity) ∨
      3 ≤ ("meditation".toList : PyStr).length) :=
  ⟨by decide,
    extract_noun_phrases_min_length [witnessChunk] [] _ (by decide)⟩

/-! ## Per-video extraction boundary
(`TopicExtractorV2.extract_video_topics_enhanced`, lines 242-344)

The body of the `try:` block (candidate extraction, MMR selection, evidence
linking, confidence computation, lines 273-340) is a fallible computation;
it is modelled as an `Except` value: `.ok` with the list of topics it built,
or `.error` carrying the exception it raised.  The function's guard
(lines 267-269) and the `except` handler (lines 342-344) are embedded
directly. -/

def extract_video_topics_enhanced {α : Type} (transcript : PyStr)
    (tryBody : Except String (List α)) : List α :=
  if transcript = [] ∨ transcript.length < 50 then []
  else
    match tryBody with
    | .error _ => []
    | .ok topics => topics

/-- C3: per-video extraction is a total function into topic lists (never
raises): a transcript that is empty or shorter than 50 characters yields
`[]`; a body that raises is caught at the video boundary and also yields
`[]`; and only a successfully computed body on a long-enough transcript is
returned as-is. -/
theorem extract_video_topics_enhanced_total {α : Type} (transcript : PyStr)
    (tryBody : Except String (List α)) :
    (transcript.length < 50 → extract_video_topics_enhanced transcript tryBody = []) ∧
    (∀ e, tryBody = .error e → extract_video_topics_enhanced transcript tryBody = []) ∧
    (∀ topics, tryBody = .ok topics → 50 ≤ transcript.length →
      extract_video_topics_enhanced transcript tryBody = topics) := by
  refine ⟨?_, ?_, ?_⟩
  · intro hshort
    unfold extract_video_topics_enhanced
    rw [if_pos (Or.inr hshort)]
  · intro e he
    unfold extract_video_topics_enhanced
    by_cases hg : transcript = [] ∨ transcript.length < 50
    · rw [if_pos hg]
    · rw [if_neg hg, he]
  · intro topics hok hlong
    unfold extract_video_topics_enhanced
    have hg : ¬ (transcript = [] ∨ transcript.length < 50) := by
      intro h
      rcases h with h | h
      · rw [h] at hlong
        simp at hlong
      · omega
    rw [if_neg hg, hok]

/-- Witness for C3: the empty transcript with an erroring body yields `[]`,
and a 50-character transcript with an erroring body also yields `[]`. -/
theorem extract_video_topics_enhanced_total_witness :
    extract_video_topics_enhanced ([] : PyStr)
        (Except.error "boom" : Except String (List ℕ)) = [] ∧
    extract_video_topics_enhanced (List.replicate 50 'a')
        (Except.error "spacy failed" : Except String (List ℕ)) = [] :=
  ⟨(extract_video_topics_enhanced_total [] _).1 (by decide),
    (extract_video_topics_enhanced_total (List.replicate 50 'a') _).2.1
      "spacy failed" rfl⟩

/-! ## MMR selection (`TopicExtractorV2._compute_mmr`, lines 177-240)

Candidate and document embeddings come from the sentence-transformer model
(external input); the cosine similarities the loop reads from them are
modelled as functions: `rel i` stands for
`cosine_similarity(candidate_embeddings[i], document_embedding)` and
`sim i j` for `cosine_similarity(candidate_embeddings[i],
candidate_embeddings[j])`.  Scores are exact rationals in place of floats. -/

/-- Lines 218-228: redundancy of candidate `i` — the maximum similarity to
the already selected candidates, `0` when none are selected yet. -/
def redundancy (sim : ℕ → ℕ → ℚ) (selectedIdxs : List ℕ) (i : ℕ) : ℚ :=
  match selectedIdxs.map (sim i) with
  | [] => 0
  | x :: xs => xs.foldl max x

/-- Line 231: the MMR objective `λ·relevance − (1−λ)·redundancy`. -/
def mmrObjective (rel : ℕ → ℚ) (sim : ℕ → ℕ → ℚ) (lambda_param : ℚ)
    (selectedIdxs : List ℕ) (i : ℕ) : ℚ :=
  lambda_param * rel i - (1 - lambda_param) * redundancy sim selectedIdxs i

/-- The fold step of Python `max(..., key=f)`: replace the current best only
on a strictly larger key, so the first maximal element wins. -/
def pyMaxStep (f : ℕ → ℚ) (best y : ℕ) : ℕ := if f best < f y then y else best

/-- Line 235: Python `max(mmr_scores, key=...)` over the remaining pool. -/
def pyMaxBy (f : ℕ → ℚ) : List ℕ → Option ℕ
  | [] => none
  | x :: xs => some (xs.foldl (pyMaxStep f) x)

/-- The `while` loop of `_compute_mmr` (lines 206-238), with the number of
iterations still allowed (`min top_n n − len(selected)`) made explicit as
`quota`.  Each round scores every remaining candidate, picks the first
maximal one, appends it with its score and removes it from the pool. -/
def mmrLoop (rel : ℕ → ℚ) (sim : ℕ → ℕ → ℚ) (lambda_param : ℚ) :
    ℕ → List ℕ → List (ℕ × ℚ) → List (ℕ × ℚ)
  | 0, _, selected => selected
  | quota + 1, remaining, selected =>
    match pyMaxBy (mmrObjective rel sim lambda_param (selected.map Prod.fst)) remaining with
    | none => selected
    | some best =>
      mmrLoop rel sim lambda_param quota (remaining.erase best)
        (selected ++ [(best, mmrObjective rel sim lambda_param (selected.map Prod.fst) best)])

/-- `_compute_mmr` at the level of candidate indices: pool `range n`, empty
selection, quota `min top_n n`. -/
def compute_mmr_idx (rel : ℕ → ℚ) (sim : ℕ → ℕ → ℚ) (lambda_param : ℚ)
    (top_n n : ℕ) : List (ℕ × ℚ) :=
  mmrLoop rel sim lambda_param (min top_n n) (List.range n) []

/-- Embedding of `_compute_mmr` (lines 177-240): the selected indices mapped
back to `(phrase, score)` pairs. -/
def compute_mmr (candidates : List PyStr) (rel : ℕ → ℚ) (sim : ℕ → ℕ → ℚ)
    (lambda_param : ℚ) (top_n : ℕ) : List (PyStr × ℚ) :=
  (compute_mmr_idx rel sim lambda_param top_n candidates.length).map
    (fun p => (candidates.getD p.1 [], p.2))

/-- The claim's description of an MMR selection run from quota `q`, pool
`remaining` and already-picked `selected` to final output: each pick
maximizes the MMR objective (relative to what is already selected) over the
remaining pool, is recorded together with its objective value, and is
removed from the pool; the run stops when `q` picks have been made or the
pool is exhausted. -/
inductive MMRRun (rel : ℕ → ℚ) (sim : ℕ → ℕ → ℚ) (lam : ℚ) :
    ℕ → List ℕ → List (ℕ × ℚ) → List (ℕ × ℚ) → Prop
  | quota_exhausted (remaining : List ℕ) (selected : List (ℕ × ℚ)) :
      MMRRun rel sim lam 0 remaining selected selected
  | pool_exhausted (q : ℕ) (selected : List (ℕ × ℚ)) :
      MMRRun rel sim lam (q + 1) [] selected selected
  | pick (q : ℕ) (remaining : List ℕ) (selected : List (ℕ × ℚ)) (best : ℕ)
      (out : List (ℕ × ℚ))
      (hmem : best ∈ remaining)
      (hmax : ∀ i ∈ remaining,
        mmrObjective rel sim lam (selected.map Prod.fst) i
          ≤ mmrObjective rel sim lam (selected.map Prod.fst) best)
      (hrec : MMRRun rel sim lam q (remaining.erase best)
        (selected ++ [(best, mmrObjective rel sim lam (selected.map Prod.fst) best)]) out) :
      MMRRun rel sim lam (q + 1) remaining selected out

theorem le_pyMaxStep (f : ℕ → ℚ) (best y : ℕ) :
    f best ≤ f (pyMaxStep f best y) ∧ f y ≤ f (pyMaxStep f best y) := by
  unfold pyMaxStep
  by_cases h : f best < f y
  · rw [if_pos h]
    exact ⟨le_of_lt h, le_refl _⟩
  · rw [if_neg h]
    exact ⟨le_refl _, le_of_not_lt h⟩

theorem foldl_pyMaxStep_ge_start (f : ℕ → ℚ) :
    ∀ (xs : List ℕ) (x : ℕ), f x ≤ f (xs.foldl (pyMaxStep f) x) := by
  intro xs
  induction xs with
  | nil => intro x; exact le_refl _
  | cons y t ih =>
    intro x
    calc f x ≤ f (pyMaxStep f x y) := (le_pyMaxStep f x y).1
    _ ≤ f (t.foldl (pyMaxStep f) (pyMaxStep f x y)) := ih _

theorem foldl_pyMaxStep_ge_mem (f : ℕ → ℚ) :
    ∀ (xs : List ℕ) (x z : ℕ), z ∈ xs → f z ≤ f (xs.foldl (pyMaxStep f) x) := by
  intro xs
  induction xs with
  | nil => intro x z hz; cases hz
  | cons y t ih =>
    intro x z hz
    rcases List.mem_cons.mp hz with hzy | hzt
    · subst hzy
      calc f z ≤ f (pyMaxStep f x z) := (le_pyMaxStep f x z).2
      _ ≤ f (t.foldl (pyMaxStep f) (pyMaxStep f x z)) := foldl_pyMaxStep_ge_start f t _
    · exact ih _ z hzt

theorem foldl_pyMaxStep_mem (f : ℕ → ℚ) :
    ∀ (xs : List ℕ) (x : ℕ), xs.foldl (pyMaxStep f) x ∈ x :: xs := by
  intro xs
  induction xs with
  | nil => intro x; exact List.mem_singleton.mpr rfl
  | cons y t ih =>
    intro x
    rw [List.foldl_cons]
    have hstep : pyMaxStep f x y ∈ [x, y] := by
      unfold pyMaxStep
      by_cases h : f x < f y
      · rw [if_pos h]; simp
      · rw [if_neg h]; simp
    have hmem := ih (pyMaxStep f x y)
    rcases List.mem_cons.mp hmem with h1 | h2
    · rw [h1]
      rcases List.mem_cons.mp hstep with h3 | h4
      · rw [h3]; simp
      · simp at h4
        rw [h4]; simp
    · simp [h2]

theorem pyMaxBy_spec (f : ℕ → ℚ) (l : List ℕ) (b : ℕ) (h : pyMaxBy f l = some b) :
    b ∈ l ∧ ∀ x ∈ l, f x ≤ f b := by
  cases l with
  | nil => cases h
  | cons x xs =>
    have hb : b = xs.foldl (pyMaxStep f) x := by
      simp only [pyMaxBy, Option.some.injEq] at h
      exact h.symm
    subst hb
    refine ⟨foldl_pyMaxStep_mem f xs x, ?_⟩
    intro z hz
    rcases List.mem_cons.mp hz with h1 | h2
    · rw [h1]
      exact foldl_pyMaxStep_ge_start f xs x
    · exact foldl_pyMaxStep_ge_mem f xs x z h2

theorem mmrLoop_length (rel : ℕ → ℚ) (sim : ℕ → ℕ → ℚ) (lam : ℚ) :
    ∀ (q : ℕ) (rem : List ℕ) (sel : List (ℕ × ℚ)),
      (mmrLoop rel sim lam q rem sel).length ≤ sel.length + q := by
  intro q
  induction q with
  | zero => intro rem sel; simp [mmrLoop]
  | succ q ih =>
    intro rem sel
    rw [mmrLoop]
    cases hmax : pyMaxBy (mmrObjective rel sim lam (sel.map Prod.fst)) rem with
    | none => exact Nat.le_add_right _ _
    | some best =>
      show (mmrLoop rel sim lam q (rem.erase best)
        (sel ++ [(best, mmrObjective rel sim lam (sel.map Prod.fst) best)])).length
          ≤ sel.length + (q + 1)
      have := ih (rem.erase best)
        (sel ++ [(best, mmrObjective rel sim lam (sel.map Prod.fst) best)])
      simp only [List.length_append, List.length_cons, List.length_nil] at this
      omega

theorem mmrLoop_run (rel : ℕ → ℚ) (sim : ℕ → ℕ → ℚ) (lam : ℚ) :
    ∀ (q : ℕ) (rem : List ℕ) (sel : List (ℕ × ℚ)),
      MMRRun rel sim lam q rem sel (mmrLoop rel sim lam q rem sel) := by
  intro q
  induction q with
  | zero =>
    intro rem sel
    rw [mmrLoop]
    exact MMRRun.quota_exhausted rem sel
  | succ q ih =>
    intro rem sel
    cases rem with
    | nil =>
      rw [mmrLoop]
      exact MMRRun.pool_exhausted q sel
    | cons x xs =>
      rw [mmrLoop]
      cases hmax : pyMaxBy (mmrObjective rel sim lam (sel.map Prod.fst)) (x :: xs) with
      | none => simp [pyMaxBy] at hmax
      | some best =>
        have hspec := pyMaxBy_spec _ _ _ hmax
        exact MMRRun.pick q (x :: xs) sel best _ hspec.1 hspec.2 (ih _ _)

theorem mmrLoop_fst_mem (rel : ℕ → ℚ) (sim : ℕ → ℕ → ℚ) (lam : ℚ) :
    ∀ (q : ℕ) (rem : List ℕ) (sel : List (ℕ × ℚ)),
      ∀ i ∈ (mmrLoop rel sim lam q rem sel).map Prod.fst,
        i ∈ sel.map Prod.fst ∨ i ∈ rem := by
  intro q
  induction q with
  | zero =>
    intro rem sel i hi
    rw [mmrLoop] at hi
    exact Or.inl hi
  | succ q ih =>
    intro rem sel i hi
    rw [mmrLoop] at hi
    cases hmax : pyMaxBy (mmrObjective rel sim lam (sel.map Prod.fst)) rem with
    | none =>
      rw [hmax] at hi
      exact Or.inl hi
    | some best =>
      rw [hmax] at hi
      have hspec := pyMaxBy_spec _ _ _ hmax
      rcases ih _ _ i hi with hsel | hrem
      · rw [List.map_append] at hsel
        rcases List.mem_append.mp hsel with h1 | h2
        · exact Or.inl h1
        · simp at h2
          rw [h2]
          exact Or.inr hspec.1
      · exact Or.inr ((List.erase_sublist best rem).mem hrem)

theorem mmrLoop_fst_nodup (rel : ℕ → ℚ) (sim : ℕ → ℕ → ℚ) (lam : ℚ) :
    ∀ (q : ℕ) (rem : List ℕ) (sel : List (ℕ × ℚ)),
      rem.Nodup → (sel.map Prod.fst).Nodup →
      (∀ i ∈ rem, i ∉ sel.map Prod.fst) →
      ((mmrLoop rel sim lam q rem sel).map Prod.fst).Nodup := by
  intro q
  induction q with
  | zero =>
    intro rem sel _ hsel _
    rw [mmrLoop]
    exact hsel
  | succ q ih =>
    intro rem sel hrem hsel hdisj
    rw [mmrLoop]
    cases hmax : pyMaxBy (mmrObjective rel sim lam (sel.map Prod.fst)) rem with
    | none => exact hsel
    | some best =>
      have hspec := pyMaxBy_spec _ _ _ hmax
      apply ih
      · exact hrem.erase best
      · simp only [List.map_append, List.map_cons, List.map_nil]
        have hperm : (sel.map Prod.fst ++ [best]).Perm (best :: sel.map Prod.fst) :=
          List.perm_append_singleton best (sel.map Prod.fst)
        rw [hperm.nodup_iff]
        exact List.nodup_cons.mpr ⟨hdisj best hspec.1, hsel⟩
      · intro i hi
        simp only [List.map_append, List.map_cons, List.map_nil]
        have hine : i ∈ rem ∧ i ≠ best := by
          have := (hrem.mem_erase_iff).mp hi
          exact ⟨this.2, this.1⟩
        intro hmem
        rcases List.mem_append.mp hmem with h1 | h2
        · exact hdisj i hine.1 h1
        · simp at h2
          exact hine.2 h2

/-- C2: for every candidate list, document/candidate similarities, `λ` and
target count `N = top_n`, MMR selection returns at most `N` `(phrase, score)`
pairs, never selects the same pool candidate twice (the selected indices are
distinct — so with a duplicate-free candidate list, as the caller guarantees
by deduplicating at line 279, no phrase repeats), and the selection is a
greedy MMR run: each pick maximizes
`λ·relevance − (1−λ)·max-redundancy-to-already-selected` over the remaining
pool, is removed from the pool, and the run stops after `N` picks or when
the pool is exhausted. -/
theorem compute_mmr_correct (candidates : List PyStr) (rel : ℕ → ℚ)
    (sim : ℕ → ℕ → ℚ) (lam : ℚ) (top_n : ℕ) :
    (compute_mmr candidates rel sim lam top_n).length ≤ top_n ∧
    ((compute_mmr_idx rel sim lam top_n candidates.length).map Prod.fst).Nodup ∧
    (candidates.Nodup →
      ((compute_mmr candidates rel sim lam top_n).map Prod.fst).Nodup) ∧
    MMRRun rel sim lam (min top_n candidates.length)
      (List.range candidates.length) []
      (compute_mmr_idx rel sim lam top_n candidates.length) := by
  have hidxnodup : ((compute_mmr_idx rel sim lam top_n candidates.length).map Prod.fst).Nodup := by
    apply mmrLoop_fst_nodup
    · exact List.nodup_range _
    · simp
    · simp
  have hbound : ∀ i ∈ (compute_mmr_idx rel sim lam top_n candidates.length).map Prod.fst,
      i < candidates.length := by
    intro i hi
    rcases mmrLoop_fst_mem rel sim lam _ _ _ i hi with h1 | h2
    · simp at h1
    · exact List.mem_range.mp h2
  refine ⟨?_, hidxnodup, ?_, ?_⟩
  · unfold compute_mmr
    rw [List.length_map]
    have := mmrLoop_length rel sim lam (min top_n candidates.length)
      (List.range candidates.length) []
    unfold compute_mmr_idx
    simp only [List.length_nil, Nat.zero_add] at this
    omega
  · intro hnodup
    unfold compute_mmr
    have hcomp : ((compute_mmr_idx rel sim lam top_n candidates.length).map
          (fun p => (candidates.getD p.1 [], p.2))).map Prod.fst
        = ((compute_mmr_idx rel sim lam top_n candidates.length).map Prod.fst).map
            (fun i => candidates.getD i []) := by
      rw [List.map_map, List.map_map]
      rfl
    rw [hcomp]
    apply List.Nodup.map_on ?_ hidxnodup
    intro x hx y hy hxy
    have hxlt := hbound x hx
    have hylt := hbound y hy
    rw [List.getD_eq_getElem _ _ hxlt, List.getD_eq_getElem _ _ hylt] at hxy
    exact (List.Nodup.getElem_inj_iff hnodup).mp hxy
  · exact mmrLoop_run rel sim lam _ _ _

/-- Witness for C2, on the concrete pool `["ab", "cd"]` with relevance
`1, 0`, zero pairwise similarity, `λ = 7/10`, `N = 1`. -/
theorem compute_mmr_correct_witness :
    (["ab".toList, "cd".toList] : List PyStr).Nodup ∧
    (compute_mmr ["ab".toList, "cd".toList]
        (fun i => if i = 0 then 1 else 0) (fun _ _ => 0) (7/10) 1).length ≤ 1 ∧
    (((compute_mmr ["ab".toList, "cd".toList]
        (fun i => if i = 0 then 1 else 0) (fun _ _ => 0) (7/10) 1).map Prod.fst).Nodup) :=
  have h := compute_mmr_correct ["ab".toList, "cd".toList]
    (fun i => if i = 0 then 1 else 0) (fun _ _ => 0) (7/10) 1
  ⟨by decide, h.1, h.2.2.1 (by decide)⟩

/-! ## Umbrella clustering cascade (`umbrella_builder.py`, lines 282-395)

The clustering libraries (leidenalg, python-louvain, hdbscan, scipy
`connected_components`) are external; what each strategy method does in repo
code is read the per-node label assignment the library returns, group node
indices by label, and (for Leiden, Louvain and connected components, but not
HDBSCAN) drop groups smaller than `min_cluster_size`.  The label assignment
is modelled as the list `labels`, with `labels[i]` the label of node `i`. -/

/-- Distinct labels in order of first occurrence (Python `defaultdict`
insertion order). -/
def distinctLabels (labels : List ℤ) : List ℤ :=
  labels.foldl (fun acc l => if l ∈ acc then acc else acc ++ [l]) []

/-- Group node indices by their label: one group per distinct label, members
in index order (`for idx, label in enumerate(labels): clusters[label].append(idx)`). -/
def groupByLabel (labels : List ℤ) : List (List ℕ) :=
  (distinctLabels labels).map
    (fun l => (List.range labels.length).filter (fun i => labels.getD i 0 = l))

/-- The size filter shared by Leiden (line 329), Louvain (line 352) and
connected components (line 392):
`[c for c in clusters.values() if len(c) >= self.min_cluster_size]`. -/
def filterClustersByMinSize (min_cluster_size : ℕ) (clusters : List (List ℕ)) :
    List (List ℕ) :=
  clusters.filter (fun c => min_cluster_size ≤ c.length)

/-- Embedding of `_cluster_connected_components` (lines 381-395): group by
component label, keep groups of size ≥ `min_cluster_size`. -/
def cluster_connected_components (min_cluster_size : ℕ) (labels : List ℤ) :
    List (List ℕ) :=
  filterClustersByMinSize min_cluster_size (groupByLabel labels)

/-- Embedding of `_cluster_leiden` (lines 306-332): group by community
membership, keep groups of size ≥ `min_cluster_size`. -/
def cluster_leiden (min_cluster_size : ℕ) (membership : List ℤ) :
    List (List ℕ) :=
  filterClustersByMinSize min_cluster_size (groupByLabel membership)

/-- Embedding of `_cluster_louvain` (lines 334-355): group by community
label, keep groups of size ≥ `min_cluster_size`. -/
def cluster_louvain (min_cluster_size : ℕ) (partition : List ℤ) :
    List (List ℕ) :=
  filterClustersByMinSize min_cluster_size (groupByLabel partition)

/-- Embedding of `_cluster_hdbscan` (lines 357-379): group by label,
dropping only noise points (`label = -1`); there is **no**
`min_cluster_size` post-filter on this path. -/
def cluster_hdbscan (labels : List ℤ) : List (List ℕ) :=
  (distinctLabels (labels.filter (fun l => 0 ≤ l))).map
    (fun l => (List.range labels.length).filter (fun i => labels.getD i 0 = l))

/-- C6 counterexample: on the HDBSCAN path, a label assignment containing a
lone cluster label (here one point labelled `0`) is emitted as a singleton
cluster — the repo code applies no minimum-size filter on this strategy, so
the guarantee rests entirely on the external library. -/
theorem cluster_hdbscan_singleton_cex :
    ¬ (∀ c ∈ cluster_hdbscan [0], 2 ≤ c.length) := by decide

/-- C6 (amended): the Leiden, Louvain and connected-components strategies
filter out clusters below the configured minimum size in repository code —
for every label assignment and every minimum, each emitted cluster has at
least `min_cluster_size` members.  The HDBSCAN path only drops noise points
(label `-1`) and performs no size filter of its own. -/
theorem cluster_cascade_min_size (min_cluster_size : ℕ) (labels : List ℤ) :
    (∀ c ∈ cluster_connected_components min_cluster_size labels,
      min_cluster_size ≤ c.length) ∧
    (∀ c ∈ cluster_leiden min_cluster_size labels,
      min_cluster_size ≤ c.length) ∧
    (∀ c ∈ cluster_louvain min_cluster_size labels,
      min_cluster_size ≤ c.length) := by
  refine ⟨?_, ?_, ?_⟩ <;>
  · intro c hc
    have := List.of_mem_filter hc
    exact Nat.le_of_ble_eq_true (by simpa using this)

/-- Witness for C6 (amended): labels `[0, 0]` with minimum 2 give the single
cluster `[0, 1]`, of size ≥ 2, on the connected-components fallback. -/
theorem cluster_cascade_min_size_witness :
    [0, 1] ∈ cluster_connected_components 2 [0, 0] ∧
    2 ≤ ([0, 1] : List ℕ).length :=
  ⟨by decide, (cluster_cascade_min_size 2 [0, 0]).1 [0, 1] (by decide)⟩

/-! ## Cluster coherence (`UmbrellaBuilder._build_umbrellas`, lines 516-524) -/

/-- Dot product of two embedding vectors over their common prefix. -/
def dotProduct (u v : List ℝ) : ℝ := (List.zipWith (· * ·) u v).sum

/-- Euclidean norm of an embedding vector. -/
noncomputable def vecNorm (u : List ℝ) : ℝ := Real.sqrt (dotProduct u u)

/-- sklearn `cosine_similarity` of two rows: the normalized dot product;
sklearn's row normalization leaves zero-norm rows untouched, so their
similarity is 0. -/
noncomputable def cosineSim (u v : List ℝ) : ℝ :=
  if vecNorm u = 0 ∨ vecNorm v = 0 then 0
  else dotProduct u v / (vecNorm u * vecNorm v)

/-- The strict upper triangle (`np.triu(..., k=1)`) of the pairwise
similarity matrix, as the list of index pairs `i < j` read row by row. -/
def upperTrianglePairs : List (List ℝ) → List (List ℝ × List ℝ)
  | [] => []
  | x :: xs => xs.map (fun y => (x, y)) ++ upperTrianglePairs xs

/-- Embedding of the coherence computation in `_build_umbrellas`
(lines 516-524): the mean of the upper triangle of the pairwise
cosine-similarity matrix when the cluster has more than one embedding,
else `1.0`. -/
noncomputable def avg_coherence (cluster_embeddings : List (List ℝ)) : ℝ :=
  if 1 < cluster_embeddings.length then
    ((upperTrianglePairs cluster_embeddings).map (fun p => cosineSim p.1 p.2)).sum
      / ((upperTrianglePairs cluster_embeddings).length : ℝ)
  else 1

theorem dotProduct_self_nonneg (u : List ℝ) : 0 ≤ dotProduct u u := by
  induction u with
  | nil => simp [dotProduct]
  | cons a t ih =>
    unfold dotProduct at *
    simp only [List.zipWith_cons_cons, List.sum_cons]
    nlinarith [sq_nonneg a]

theorem dotProduct_sq_le (u : List ℝ) :
    ∀ v : List ℝ, (dotProduct u v) ^ 2 ≤ dotProduct u u * dotProduct v v := by
  induction u with
  | nil =>
    intro v
    simp [dotProduct]
  | cons a t ih =>
    intro v
    cases v with
    | nil => simp [dotProduct]
    | cons b w =>
      have hIH := ih w
      have htt := dotProduct_self_nonneg t
      have hww := dotProduct_self_nonneg w
      unfold dotProduct at *
      simp only [List.zipWith_cons_cons, List.sum_cons]
      set d := (List.zipWith (fun x1 x2 => x1 * x2) t w).sum with hd
      set du := (List.zipWith (fun x1 x2 => x1 * x2) t t).sum with hdu
      set dv := (List.zipWith (fun x1 x2 => x1 * x2) w w).sum with hdv
      rcases eq_or_lt_of_le htt with hdu0 | hdupos
      · rw [← hdu0] at hIH
        have hd2 : d ^ 2 = 0 :=
          le_antisymm (by nlinarith [hIH]) (sq_nonneg d)
        have hd0 : d = 0 := sq_eq_zero_iff.mp hd2
        rw [← hdu0, hd0]
        nlinarith [mul_nonneg (mul_self_nonneg a) hww]
      · nlinarith [sq_nonneg (a * d - b * du), hIH, hww, sq_nonneg a,
          mul_nonneg htt hww, mul_pos hdupos hdupos]

theorem abs_cosineSim_le_one (u v : List ℝ) : |cosineSim u v| ≤ 1 := by
  unfold cosineSim
  by_cases h : vecNorm u = 0 ∨ vecNorm v = 0
  · rw [if_pos h]
    norm_num
  · rw [if_neg h]
    push_neg at h
    have hu0 : 0 ≤ vecNorm u := Real.sqrt_nonneg _
    have hv0 : 0 ≤ vecNorm v := Real.sqrt_nonneg _
    have hu : 0 < vecNorm u := lt_of_le_of_ne hu0 (Ne.symm h.1)
    have hv : 0 < vecNorm v := lt_of_le_of_ne hv0 (Ne.symm h.2)
    rw [abs_div, abs_of_pos (mul_pos hu hv), div_le_one (mul_pos hu hv)]
    have hsq : (dotProduct u v) ^ 2 ≤ (vecNorm u * vecNorm v) ^ 2 := by
      have : (vecNorm u * vecNorm v) ^ 2 = dotProduct u u * dotProduct v v := by
        rw [mul_pow]
        unfold vecNorm
        rw [Real.sq_sqrt (dotProduct_self_nonneg u), Real.sq_sqrt (dotProduct_self_nonneg v)]
      rw [this]
      exact dotProduct_sq_le u v
    calc |dotProduct u v| = Real.sqrt ((dotProduct u v) ^ 2) := (Real.sqrt_sq_eq_abs _).symm
    _ ≤ Real.sqrt ((vecNorm u * vecNorm v) ^ 2) := Real.sqrt_le_sqrt hsq
    _ = |vecNorm u * vecNorm v| := Real.sqrt_sq_eq_abs _
    _ = vecNorm u * vecNorm v := abs_of_pos (mul_pos hu hv)

theorem abs_sum_le_length {l : List ℝ} (h : ∀ x ∈ l, |x| ≤ 1) :
    |l.sum| ≤ (l.length : ℝ) := by
  induction l with
  | nil => simp
  | cons a t ih =>
    simp only [List.sum_cons, List.length_cons]
    have ha := h a (by simp)
    have ht := ih fun x hx => h x (by simp [hx])
    calc |a + t.sum| ≤ |a| + |t.sum| := abs_add _ _
    _ ≤ 1 + (t.length : ℝ) := by linarith
    _ = ((t.length + 1 : ℕ) : ℝ) := by push_cast; ring

/-- C9 counterexample: a two-member cluster whose embeddings are the opposed
unit vectors `(1,0)` and `(-1,0)` has `avg_coherence = -1`, which is not in
`[0, 1]` — pairwise cosine similarity, and therefore its mean, can be
negative. -/
theorem avg_coherence_cex : avg_coherence [[1, 0], [(-1), 0]] < 0 := by
  have hcs : cosineSim [(1 : ℝ), 0] [(-1), 0] = -1 := by
    have hdot : dotProduct [(1 : ℝ), 0] [(-1), 0] = -1 := by
      simp [dotProduct]
    have hself : dotProduct [(1 : ℝ), 0] [(1 : ℝ), 0] = 1 := by
      simp [dotProduct]
    have hselfm : dotProduct [(-1 : ℝ), 0] [(-1 : ℝ), 0] = 1 := by
      simp [dotProduct]
    have hn1 : vecNorm [(1 : ℝ), 0] = 1 := by
      unfold vecNorm
      rw [hself, Real.sqrt_one]
    have hn2 : vecNorm [(-1 : ℝ), 0] = 1 := by
      unfold vecNorm
      rw [hselfm, Real.sqrt_one]
    unfold cosineSim
    rw [if_neg (by rw [hn1, hn2]; norm_num), hdot, hn1, hn2]
    norm_num
  unfold avg_coherence
  rw [if_pos (by norm_num)]
  simp only [upperTrianglePairs, List.map_cons, List.map_nil, List.map_append]
  simp only [List.map, hcs]
  norm_num

/-- C9 (amended): for every cluster, `avg_coherence` lies in `[-1, 1]` (not
`[0, 1]`: it is a mean of cosine similarities and can be negative); it is
computed as the mean of the upper-triangle pairwise cosine similarities when
the cluster has more than one member embedding, and is exactly `1.0` for a
single member embedding. -/
theorem avg_coherence_bounds (cluster_embeddings : List (List ℝ)) :
    (-1 ≤ avg_coherence cluster_embeddings ∧ avg_coherence cluster_embeddings ≤ 1) ∧
    (cluster_embeddings.length = 1 → avg_coherence cluster_embeddings = 1) ∧
    (1 < cluster_embeddings.length →
      avg_coherence cluster_embeddings
        = ((upperTrianglePairs cluster_embeddings).map (fun p => cosineSim p.1 p.2)).sum
            / ((upperTrianglePairs cluster_embeddings).length : ℝ)) := by
  refine ⟨?_, ?_, ?_⟩
  · unfold avg_coherence
    by_cases h : 1 < cluster_embeddings.length
    · rw [if_pos h]
      set pairs := upperTrianglePairs cluster_embeddings with hpairs
      have habs : ∀ x ∈ pairs.map (fun p => cosineSim p.1 p.2), |x| ≤ 1 := by
        intro x hx
        obtain ⟨p, _, hp⟩ := List.mem_map.mp hx
        rw [← hp]
        exact abs_cosineSim_le_one p.1 p.2
      have hsum := abs_sum_le_length habs
      rw [List.length_map] at hsum
      by_cases hlen : pairs.length = 0
      · rw [hlen]
        norm_num
      · have hlen' : (0 : ℝ) < (pairs.length : ℝ) := by
          have : 0 < pairs.length := Nat.pos_of_ne_zero hlen
          exact_mod_cast this
        rw [abs_le] at hsum
        constructor
        · rw [le_div_iff hlen']
          linarith [hsum.1]
        · rw [div_le_one hlen']
          linarith [hsum.2]
    · rw [if_neg h]
      norm_num
  · intro h1
    unfold avg_coherence
    rw [if_neg (by omega)]
  · intro h1
    unfold avg_coherence
    rw [if_pos h1]

/-- Witness for C9 (amended): the singleton cluster `[[1, 0]]` has
coherence exactly 1, and the two-member cluster `[[1,0], [-1,0]]` has mean
computed over its one upper-triangle pair. -/
theorem avg_coherence_bounds_witness :
    ([[ (1 : ℝ), 0 ]].length = 1) ∧ avg_coherence [[(1 : ℝ), 0]] = 1 :=
  ⟨rfl, (avg_coherence_bounds [[(1 : ℝ), 0]]).2.1 rfl⟩

/-! ## Account aggregation (`TopicExtractor.aggregate_account_tags`,
`topic_extractor.py`, lines 156-221)

Scores are exact rationals; only the engagement weight, which takes a
logarithm, lives in `ℝ`. -/

/-- One entry of a per-video tag list (`tag_item`). -/
structure TagItem where
  tag : String
  score : ℚ
deriving DecidableEq

/-- One per-video tag record (`video_tag_data`): its video id and its tags. -/
structure VideoTags where
  video_id : String
  tags : List TagItem
deriving DecidableEq

/-- One row of `video_metadata`: video id and view count. -/
structure VideoMeta where
  video_id : String
  view_count : ℕ
deriving DecidableEq

/-- Line 174: `video_meta_map = {v['video_id']: v for v in video_metadata}` —
a later row with the same id overwrites an earlier one, so lookup finds the
last matching row.  Returns the `view_count` (`.get('view_count', 0)`), or
`none` when the id is absent (`if video_id in video_meta_map`). -/
def video_meta_view (video_metadata : List VideoMeta) (vid : String) : Option ℕ :=
  (video_metadata.reverse.find? (fun m => m.video_id == vid)).map VideoMeta.view_count

/-- Lines 177-185: the occurrences of `tag` across all videos, in iteration
order, each as `(video_id, score)` — one `tag_counts[tag] += 1`,
`tag_scores[tag].append(score)`, `tag_videos[tag].append(video_id)` step. -/
def tagOccurrences (video_tags : List VideoTags) (tag : String) :
    List (String × ℚ) :=
  video_tags.flatMap (fun v =>
    v.tags.filterMap (fun it =>
      if it.tag = tag then some (v.video_id, it.score) else none))

/-- `tag_counts[tag]`. -/
def tagFrequency (video_tags : List VideoTags) (tag : String) : ℕ :=
  (tagOccurrences video_tags tag).length

/-- `tag_videos[tag]`. -/
def tagVideoIds (video_tags : List VideoTags) (tag : String) : List String :=
  (tagOccurrences video_tags tag).map Prod.fst

/-- Line 190: `avg_score = np.mean(tag_scores[tag])`. -/
def tagAvgScore (video_tags : List VideoTags) (tag : String) : ℚ :=
  ((tagOccurrences video_tags tag).map Prod.snd).sum
    / (tagFrequency video_tags tag : ℚ)

/-- Lines 194-197: `total_views`, summing `view_count` over the videos that
contain the tag, once per occurrence, skipping ids absent from the
metadata map. -/
def tagTotalViews (video_tags : List VideoTags) (video_metadata : List VideoMeta)
    (tag : String) : ℕ :=
  ((tagVideoIds video_tags tag).map
    (fun vid => (video_meta_view video_metadata vid).getD 0)).sum

/-- Lines 193-200: `engagement_weight = 1.0`, overwritten by
`1 + np.log1p(total_views) / 20` only when `total_views > 0`. -/
noncomputable def engagement_weight (total_views : ℕ) : ℝ :=
  if 0 < total_views then 1 + Real.log (1 + (total_views : ℝ)) / 20 else 1

/-- Line 203: `combined_score = count * avg_score * engagement_weight`. -/
noncomputable def combined_score (video_tags : List VideoTags)
    (video_metadata : List VideoMeta) (tag : String) : ℝ :=
  (tagFrequency video_tags tag : ℝ) * (tagAvgScore video_tags tag : ℝ)
    * engagement_weight (tagTotalViews video_tags video_metadata tag)

/-- The single-video scenario of the claim: one video `v1` with the tag
`"mindfulness"` at score `0.8`. -/
def scenarioVideo : VideoTags := ⟨"v1", [⟨"mindfulness", 8/10⟩]⟩

/-- Metadata for the scenario: `v1` has `view_count = 0`. -/
def scenarioMeta : VideoMeta := ⟨"v1", 0⟩

/-- C7: the combined score is `frequency × avg_score × engagement_weight`,
with `engagement_weight = 1 + ln(1 + total_views)/20` exactly when the
tag's videos have positive total views and exactly `1.0` when total views
are zero (absent view data contributes zero); in particular a single video
with one tag of score `0.8` and `view_count = 0` yields engagement weight
`1.0` and combined score `0.8`. -/
theorem aggregate_account_tags_engagement (video_tags : List VideoTags)
    (video_metadata : List VideoMeta) (tag : String) :
    (tagTotalViews video_tags video_metadata tag = 0 →
      engagement_weight (tagTotalViews video_tags video_metadata tag) = 1) ∧
    (0 < tagTotalViews video_tags video_metadata tag →
      engagement_weight (tagTotalViews video_tags video_metadata tag)
        = 1 + Real.log (1 + (tagTotalViews video_tags video_metadata tag : ℝ)) / 20) ∧
    combined_score video_tags video_metadata tag
      = (tagFrequency video_tags tag : ℝ) * (tagAvgScore video_tags tag : ℝ)
          * engagement_weight (tagTotalViews video_tags video_metadata tag) ∧
    engagement_weight (tagTotalViews [scenarioVideo] [scenarioMeta] "mindfulness") = 1 ∧
    combined_score [scenarioVideo] [scenarioMeta] "mindfulness" = 8/10 := by
  have hviews : tagTotalViews [scenarioVideo] [scenarioMeta] "mindfulness" = 0 := by decide
  have hweight : engagement_weight (tagTotalViews [scenarioVideo] [scenarioMeta] "mindfulness") = 1 := by
    rw [hviews]
    unfold engagement_weight
    norm_num
  refine ⟨?_, ?_, rfl, hweight, ?_⟩
  · intro h0
    rw [h0]
    unfold engagement_weight
    norm_num
  · intro hpos
    unfold engagement_weight
    rw [if_pos hpos]
  · unfold combined_score
    rw [hweight]
    have hfreq : tagFrequency [scenarioVideo] "mindfulness" = 1 := by decide
    have havg : tagAvgScore [scenarioVideo] "mindfulness" = 8/10 := by
      unfold tagAvgScore
      rw [hfreq]
      simp [tagOccurrences, scenarioVideo]
    rw [hfreq, havg]
    norm_num

/-- Witness for C7: the positive-views branch evaluated through the theorem
at a concrete input — one video `v2` with the tag `"sleep"` and 1 view. -/
theorem aggregate_account_tags_engagement_witness :
    0 < tagTotalViews [⟨"v2", [⟨"sleep", 1/2⟩]⟩] [⟨"v2", 1⟩] "sleep" ∧
    engagement_weight (tagTotalViews [⟨"v2", [⟨"sleep", 1/2⟩]⟩] [⟨"v2", 1⟩] "sleep")
      = 1 + Real.log (1 + (tagTotalViews [⟨"v2", [⟨"sleep", 1/2⟩]⟩] [⟨"v2", 1⟩] "sleep" : ℝ)) / 20 :=
  ⟨by decide,
    (aggregate_account_tags_engagement [⟨"v2", [⟨"sleep", 1/2⟩]⟩] [⟨"v2", 1⟩] "sleep").2.1
      (by decide)⟩

/-- C8: account aggregation is commutative in video order — for every
permutation of the per-video tag lists, every tag's frequency, average
score, total views, engagement weight and combined score agree exactly
(rational score arithmetic is exact, so "up to floating-point tolerance"
becomes equality), and the tag's video-id membership agrees as a multiset. -/
theorem aggregate_account_tags_comm (vts₁ vts₂ : List VideoTags)
    (video_metadata : List VideoMeta) (hperm : vts₁.Perm vts₂) (tag : String) :
    tagFrequency vts₁ tag = tagFrequency vts₂ tag ∧
    tagAvgScore vts₁ tag = tagAvgScore vts₂ tag ∧
    tagTotalViews vts₁ video_metadata tag = tagTotalViews vts₂ video_metadata tag ∧
    engagement_weight (tagTotalViews vts₁ video_metadata tag)
      = engagement_weight (tagTotalViews vts₂ video_metadata tag) ∧
    combined_score vts₁ video_metadata tag = combined_score vts₂ video_metadata tag ∧
    (tagVideoIds vts₁ tag : Multiset String) = (tagVideoIds vts₂ tag : Multiset String) := by
  have hocc : (tagOccurrences vts₁ tag).Perm (tagOccurrences vts₂ tag) :=
    hperm.flatMap_right _
  have hfreq : tagFrequency vts₁ tag = tagFrequency vts₂ tag := hocc.length_eq
  have hsum : ((tagOccurrences vts₁ tag).map Prod.snd).sum
      = ((tagOccurrences vts₂ tag).map Prod.snd).sum :=
    (hocc.map Prod.snd).sum_eq
  have havg : tagAvgScore vts₁ tag = tagAvgScore vts₂ tag := by
    unfold tagAvgScore
    rw [hsum, hfreq]
  have hviews : tagTotalViews vts₁ video_metadata tag
      = tagTotalViews vts₂ video_metadata tag := by
    unfold tagTotalViews tagVideoIds
    exact (((hocc.map Prod.fst).map _).sum_eq)
  refine ⟨hfreq, havg, hviews, by rw [hviews], ?_, ?_⟩
  · unfold combined_score
    rw [hfreq, havg, hviews]
  · exact Multiset.coe_eq_coe.mpr (hocc.map Prod.fst)

/-- Witness for C8: swapping two concrete videos leaves the `"sleep"` tag's
aggregate row unchanged. -/
theorem aggregate_account_tags_comm_witness :
    ([⟨"a", [⟨"sleep", 1/2⟩]⟩, ⟨"b", [⟨"sleep", 3/4⟩]⟩] : List VideoTags).Perm
      [⟨"b", [⟨"sleep", 3/4⟩]⟩, ⟨"a", [⟨"sleep", 1/2⟩]⟩] ∧
    tagFrequency [⟨"a", [⟨"sleep", 1/2⟩]⟩, ⟨"b", [⟨"sleep", 3/4⟩]⟩] "sleep"
      = tagFrequency [⟨"b", [⟨"sleep", 3/4⟩]⟩, ⟨"a", [⟨"sleep", 1/2⟩]⟩] "sleep" ∧
    tagAvgScore [⟨"a", [⟨"sleep", 1/2⟩]⟩, ⟨"b", [⟨"sleep", 3/4⟩]⟩] "sleep"
      = tagAvgScore [⟨"b", [⟨"sleep", 3/4⟩]⟩, ⟨"a", [⟨"sleep", 1/2⟩]⟩] "sleep" :=
  have hp : ([⟨"a", [⟨"sleep", 1/2⟩]⟩, ⟨"b", [⟨"sleep", 3/4⟩]⟩] : List VideoTags).Perm
      [⟨"b", [⟨"sleep", 3/4⟩]⟩, ⟨"a", [⟨"sleep", 1/2⟩]⟩] :=
    (List.Perm.swap _ _ []).symm
  have h := aggregate_account_tags_comm _ _ [] hp "sleep"
  ⟨hp, h.1, h.2.1⟩

/-! ## Topic assembly and source attribution
(`extract_video_topics_enhanced`, lines 292-340)

The MMR output is the `selected` list of `(phrase, mmr_score)` pairs; the
confidence calibrator and the evidence linker are abstracted as the
functions `conf` and `evidenceCount` the loop calls. -/

/-- The `EnhancedTopic` dataclass, with the fields the claim is about. -/
structure EnhancedTopic where
  tag : PyStr
  canonical : PyStr
  confidence : ℚ
  sources : List String
  score : ℚ
  topicType : String
  source : String
  evidenceCount : ℕ
deriving DecidableEq

/-- Lines 305-310: `sources = ["transcript"]`, then `"title"` is appended
when the title is truthy and contains the lower-cased phrase, and
`"hashtag"` when some hashtag contains it. -/
def topicSources (phrase title : PyStr) (hashtags : List PyStr) : List String :=
  ["transcript"]
    ++ (if title ≠ [] ∧ pyLower phrase <:+: pyLower title then ["title"] else [])
    ++ (if hashtags.any (fun tag => decide (pyLower phrase <:+: pyLower tag)) then ["hashtag"]
        else [])

/-- Lines 292-335: the topic-building loop over the MMR selection — skip
scores below `-0.1`, apply the minimum-confidence cutoff, and build the
`EnhancedTopic` with `source = sources[0] if sources else "transcript"`. -/
def buildTopics (merge_rules : List (PyStr × PyStr)) (conf : ℚ → ℕ → ℚ)
    (evidenceCount : PyStr → ℕ) (title : PyStr) (hashtags : List PyStr)
    (min_confidence : ℚ) (selected : List (PyStr × ℚ)) : List EnhancedTopic :=
  selected.filterMap (fun ps =>
    if ps.2 < -(1/10) then none
    else if conf ps.2 (evidenceCount ps.1) < min_confidence then none
    else some
      { tag := ps.1
        canonical := canonicalize merge_rules ps.1
        confidence := conf ps.2 (evidenceCount ps.1)
        sources := topicSources ps.1 title hashtags
        score := ps.2
        topicType := "keyphrase"
        source := (topicSources ps.1 title hashtags).headD "transcript"
        evidenceCount := evidenceCount ps.1 })

/-- Lines 337-340: sort descending by confidence (Python's stable sort) and
truncate to `max_topics`. -/
def assembleTopics (merge_rules : List (PyStr × PyStr)) (conf : ℚ → ℕ → ℚ)
    (evidenceCount : PyStr → ℕ) (title : PyStr) (hashtags : List PyStr)
    (min_confidence : ℚ) (max_topics : ℕ) (selected : List (PyStr × ℚ)) :
    List EnhancedTopic :=
  ((buildTopics merge_rules conf evidenceCount title hashtags min_confidence
      selected).mergeSort (fun a b => b.confidence ≤ a.confidence)).take max_topics

/-- C10: every topic returned by the per-video assembly lists
`"transcript"` first in its `sources` — `"title"` and `"hashtag"` can only
be appended after it — and its primary `source` field is therefore always
`"transcript"`; no returned topic is attributed solely to the title or a
hashtag. -/
theorem assembleTopics_sources_transcript (merge_rules : List (PyStr × PyStr))
    (conf : ℚ → ℕ → ℚ) (evidenceCount : PyStr → ℕ) (title : PyStr)
    (hashtags : List PyStr) (min_confidence : ℚ) (max_topics : ℕ)
    (selected : List (PyStr × ℚ)) :
    ∀ t ∈ assembleTopics merge_rules conf evidenceCount title hashtags
        min_confidence max_topics selected,
      t.sources.head? = some "transcript" ∧ t.source = "transcript" := by
  intro t ht
  unfold assembleTopics at ht
  have ht2 := (List.take_sublist _ _).mem ht
  have ht3 := (List.mergeSort_perm _ _).subset ht2
  unfold buildTopics at ht3
  obtain ⟨ps, _, hsome⟩ := List.mem_filterMap.mp ht3
  by_cases h1 : ps.2 < -(1/10)
  · rw [if_pos h1] at hsome
    cases hsome
  · rw [if_neg h1] at hsome
    by_cases h2 : conf ps.2 (evidenceCount ps.1) < min_confidence
    · rw [if_pos h2] at hsome
      cases hsome
    · rw [if_neg h2] at hsome
      have ht4 := (Option.some.inj hsome).symm
      subst ht4
      have hsrc : topicSources ps.1 title hashtags
          = "transcript"
            :: ((if title ≠ [] ∧ pyLower ps.1 <:+: pyLower title
                  then ["title"] else [])
              ++ (if hashtags.any (fun tag => decide (pyLower ps.1 <:+: pyLower tag))
                  then ["hashtag"] else [])) := rfl
      constructor
      · show (topicSources ps.1 title hashtags).head? = some "transcript"
        rw [hsrc]
        rfl
      · show (topicSources ps.1 title hashtags).headD "transcript" = "transcript"
        rw [hsrc]
        rfl

/-- Witness input for C10: the selection `[("m", 1/2)]` with trivial
calibrator and evidence functions builds exactly one topic. -/
def witnessTopic : EnhancedTopic :=
  { tag := ['m']
    canonical := ['m']
    confidence := 1
    sources := ["transcript"]
    score := 1/2
    topicType := "keyphrase"
    source := "transcript"
    evidenceCount := 0 }

/-- Witness for C10: on the concrete run above, the returned topic is in the
output and its sources head and primary source are `"transcript"`. -/
theorem assembleTopics_sources_transcript_witness :
    witnessTopic ∈ assembleTopics [] (fun _ _ => 1) (fun _ => 0) [] [] 0 10
        [(['m'], 1/2)] ∧
    (witnessTopic.sources.head? = some "transcript" ∧
      witnessTopic.source = "transcript") :=
  have hlist : assembleTopics [] (fun _ _ => 1) (fun _ => 0) [] [] 0 10
      [(['m'], 1/2)] = [witnessTopic] := by
    unfold assembleTopics buildTopics
    norm_num [List.filterMap_cons, List.filterMap_nil, topicSources, canonicalize,
      normalizePhrase, pyLower, pyStrip, lowerChar, witnessTopic,
      List.mergeSort_singleton]
    decide
  have hmem : witnessTopic ∈ assembleTopics [] (fun _ _ => 1) (fun _ => 0) [] [] 0 10
      [(['m'], 1/2)] := by
    rw [hlist]
    exact List.mem_singleton.mpr rfl
  ⟨hmem,
    assembleTopics_sources_transcript [] (fun _ _ => 1) (fun _ => 0) [] [] 0 10
      [(['m'], 1/2)] witnessTopic hmem⟩

end Hermes
